import Mathlib

/-!
Verification of the PageWisePDF processing engine (`src/pdf_processor.py`)
against its natural-language specification.

The Python code is shallowly embedded: strings are `String`/`List Char`,
machine floats used for timestamps are modelled exactly as rationals,
the stateful orchestrator is modelled as a pure function from its inputs
(cancellation flag, per-batch API oracle) to its observable outputs
(terminal outcome, written page results, consolidation flag, emitted
progress percentages).  Every definition is written to be executable so
that concrete instances evaluate by `decide`.
-/

/- ------------------------------------------------------------------ -/
/- Generic helpers                                                    -/
/- ------------------------------------------------------------------ -/

/-- `(a :: t).getLast? = t.getLast?` when `t` is nonempty. -/
theorem getLast?_cons_of_ne_nil {α : Type} (a : α) (t : List α) (h : t ≠ []) :
    (a :: t).getLast? = t.getLast? := by
  cases t with
  | nil => exact absurd rfl h
  | cons b u => rfl

/-- The last element of `l₁ ++ l₂` is the last element of `l₂` when `l₂ ≠ []`. -/
theorem getLast?_append_right {α : Type} (l₁ l₂ : List α) (h : l₂ ≠ []) :
    (l₁ ++ l₂).getLast? = l₂.getLast? := by
  induction l₁ with
  | nil => rfl
  | cons a t ih =>
      rw [List.cons_append, getLast?_cons_of_ne_nil a (t ++ l₂) (by
        intro he
        exact h (List.append_eq_nil.mp he).2), ih]

/-- Dropping a prefix does not change the last element, provided something is left. -/
theorem getLast?_drop_of_ne_nil {α : Type} (l : List α) (k : Nat) (h : l.drop k ≠ []) :
    (l.drop k).getLast? = l.getLast? := by
  conv_rhs => rw [← List.take_append_drop k l]
  rw [getLast?_append_right _ _ h]

/- ------------------------------------------------------------------ -/
/- Endpoint normalization (`PDFProcessor.process_api_endpoint`,       -/
/- src/pdf_processor.py lines 60-91)                                  -/
/- ------------------------------------------------------------------ -/

/-- Python's `str.endswith(pat)`: `pat` is a suffix of `s`. -/
def endsWithP (s pat : String) : Bool :=
  decide (pat.data.length ≤ s.data.length) &&
    (s.data.drop (s.data.length - pat.data.length) == pat.data)

theorem endsWithP_iff (s pat : String) :
    endsWithP s pat = true ↔
      pat.data.length ≤ s.data.length ∧
        s.data.drop (s.data.length - pat.data.length) = pat.data := by
  simp [endsWithP]

/-- If `s` ends with a nonempty `pat`, the last characters agree. -/
theorem endsWithP_getLast? (s pat : String) (h : endsWithP s pat = true)
    (hp : pat.data ≠ []) : s.data.getLast? = pat.data.getLast? := by
  rcases (endsWithP_iff s pat).mp h with ⟨_, hdrop⟩
  rw [← hdrop]
  exact (getLast?_drop_of_ne_nil _ _ (by rw [hdrop]; exact hp)).symm

/-- If `s` ends with a nonempty `pat`, then `s` is nonempty. -/
theorem endsWithP_ne_empty (s pat : String) (h : endsWithP s pat = true)
    (hp : pat.data ≠ []) : s ≠ "" := by
  rcases (endsWithP_iff s pat).mp h with ⟨hle, _⟩
  intro he
  subst he
  apply hp
  have hlen : pat.data.length = 0 := by simpa using hle
  exact List.eq_nil_of_length_eq_zero hlen

/-- Two suffix tests on single-character-determined patterns are exclusive
when the final characters differ. -/
theorem endsWithP_false_of_getLast? (s pat : String) (c : Char)
    (hp : pat.data ≠ []) (hl : s.data.getLast? = some c)
    (hne : pat.data.getLast? ≠ some c) : endsWithP s pat = false := by
  cases he : endsWithP s pat with
  | false => rfl
  | true =>
      exfalso
      have hgl := endsWithP_getLast? s pat he hp
      rw [hl] at hgl
      exact hne hgl.symm

/-- Embedding of `PDFProcessor.process_api_endpoint` (lines 60-91).
The source tests the negations (`if not endpoint.endswith(...)`); the
branches here are the same tests with the two arms exchanged. -/
def process_api_endpoint (endpoint : String) : String :=
  if endpoint = "" then "https://api.openai.com/v1/chat/completions"
  else if endsWithP endpoint "#" then String.mk endpoint.data.dropLast
  else if endsWithP endpoint "/" then
    if endsWithP endpoint "/chat/completions/" then endpoint
    else endpoint ++ "chat/completions"
  else if endsWithP endpoint "/chat/completions" then endpoint
  else if endsWithP endpoint "/v1" then endpoint ++ "/chat/completions"
  else endpoint ++ "/v1/chat/completions"

/-- C3: the endpoint-normalization rule, case by case as the claim states
it, together with the four concrete examples from the spec. -/
theorem process_api_endpoint_spec (e : String) :
    (e = "" → process_api_endpoint e = "https://api.openai.com/v1/chat/completions") ∧
    (endsWithP e "#" = true → process_api_endpoint e = String.mk e.data.dropLast) ∧
    (endsWithP e "/" = true → endsWithP e "/chat/completions/" = false →
      process_api_endpoint e = e ++ "chat/completions") ∧
    (endsWithP e "/chat/completions/" = true → process_api_endpoint e = e) ∧
    (endsWithP e "/" = false → endsWithP e "#" = false →
      endsWithP e "/chat/completions" = true → process_api_endpoint e = e) ∧
    (endsWithP e "/" = false → endsWithP e "#" = false →
      endsWithP e "/v1" = true → process_api_endpoint e = e ++ "/chat/completions") ∧
    (e ≠ "" → endsWithP e "#" = false → endsWithP e "/" = false →
      endsWithP e "/chat/completions" = false → endsWithP e "/v1" = false →
      process_api_endpoint e = e ++ "/v1/chat/completions") ∧
    (process_api_endpoint "http://x.com/" = "http://x.com/chat/completions") ∧
    (process_api_endpoint "http://x.com#" = "http://x.com") ∧
    (process_api_endpoint "http://x.com" = "http://x.com/v1/chat/completions") ∧
    (process_api_endpoint "http://x.com/v1" = "http://x.com/v1/chat/completions") := by
  refine ⟨?_, ?_, ?_, ?_, ?_, ?_, ?_, by decide, by decide, by decide, by decide⟩
  · intro he; simp [process_api_endpoint, he]
  · intro hh
    have hne : e ≠ "" := endsWithP_ne_empty e "#" hh (by decide)
    simp [process_api_endpoint, hne, hh]
  · intro hs hcc
    have hne : e ≠ "" := endsWithP_ne_empty e "/" hs (by decide)
    have hlast : e.data.getLast? = some '/' := by
      have := endsWithP_getLast? e "/" hs (by decide)
      simpa using this
    have hh : endsWithP e "#" = false :=
      endsWithP_false_of_getLast? e "#" '/' (by decide) hlast (by decide)
    simp [process_api_endpoint, hne, hh, hs, hcc]
  · intro hcc
    have hne : e ≠ "" := endsWithP_ne_empty e "/chat/completions/" hcc (by decide)
    have hlast : e.data.getLast? = some '/' := by
      have := endsWithP_getLast? e "/chat/completions/" hcc (by decide)
      simpa using this
    have hh : endsWithP e "#" = false :=
      endsWithP_false_of_getLast? e "#" '/' (by decide) hlast (by decide)
    have hs : endsWithP e "/" = true := by
      rw [endsWithP_iff]
      rcases (endsWithP_iff e "/chat/completions/").mp hcc with ⟨hle, _⟩
      refine ⟨by simpa using Nat.le_trans (by decide) hle, ?_⟩
      have hne' : e.data ≠ [] := by
        intro hnil
        simp [hnil] at hle
      rcases List.getLast?_eq_some_iff.mp hlast with ⟨l', hl'⟩
      rw [hl']
      simp
    simp [process_api_endpoint, hne, hh, hs, hcc]
  · intro hs hh hcc
    have hne : e ≠ "" := endsWithP_ne_empty e "/chat/completions" hcc (by decide)
    simp [process_api_endpoint, hne, hh, hs, hcc]
  · intro hs hh hv
    have hne : e ≠ "" := endsWithP_ne_empty e "/v1" hv (by decide)
    have hlast : e.data.getLast? = some '1' := by
      have := endsWithP_getLast? e "/v1" hv (by decide)
      simpa using this
    have hcc : endsWithP e "/chat/completions" = false :=
      endsWithP_false_of_getLast? e "/chat/completions" '1' (by decide) hlast (by decide)
    simp [process_api_endpoint, hne, hh, hs, hcc, hv]
  · intro hne hh hs hcc hv
    simp [process_api_endpoint, hne, hh, hs, hcc, hv]

/-- Witness for C3: the conditional cases are satisfiable; instantiate the
"/"-case at a concrete endpoint. -/
theorem process_api_endpoint_spec_witness :
    endsWithP "http://a.io/" "/" = true ∧
    endsWithP "http://a.io/" "/chat/completions/" = false ∧
    process_api_endpoint "http://a.io/" = "http://a.io/" ++ "chat/completions" :=
  ⟨by decide, by decide,
    (process_api_endpoint_spec "http://a.io/").2.2.1 (by decide) (by decide)⟩

/- ------------------------------------------------------------------ -/
/- Batch planning (`PDFProcessor.process`, lines 146-150):            -/
/-   for i in range(0, len(image_paths), pages_per_call):             -/
/-       page_groups.append(image_paths[i:i + pages_per_call])        -/
/- ------------------------------------------------------------------ -/

/-- Fuelled worker for the batch grouping loop.  For `1 ≤ B` and enough
fuel this is exactly the Python slicing loop: the next group is
`l[0:B] = x :: xs.take (B-1)` and the loop continues on `l[B:] = xs.drop (B-1)`. -/
def page_groupsF {α : Type} : Nat → Nat → List α → List (List α)
  | 0, _, _ => []
  | _ + 1, _, [] => []
  | fuel + 1, B, x :: xs => (x :: xs.take (B - 1)) :: page_groupsF fuel B (xs.drop (B - 1))

/-- The batch-planning step of `process` (lines 146-150). -/
def page_groups {α : Type} (B : Nat) (l : List α) : List (List α) :=
  page_groupsF l.length B l

theorem page_groupsF_nil {α : Type} (f B : Nat) : page_groupsF f B ([] : List α) = [] := by
  cases f <;> rfl

theorem page_groupsF_fuel_eq {α : Type} (B : Nat) :
    ∀ (f₁ f₂ : Nat) (l : List α), l.length ≤ f₁ → l.length ≤ f₂ →
      page_groupsF f₁ B l = page_groupsF f₂ B l := by
  intro f₁
  induction f₁ with
  | zero =>
      intro f₂ l hl _
      rw [List.eq_nil_of_length_eq_zero (Nat.le_zero.mp hl), page_groupsF_nil,
        page_groupsF_nil]
  | succ f ih =>
      intro f₂ l hl hl₂
      cases l with
      | nil => rw [page_groupsF_nil, page_groupsF_nil]
      | cons x xs =>
          cases f₂ with
          | zero => simp at hl₂
          | succ f₂ =>
              have hdrop : (xs.drop (B - 1)).length ≤ xs.length := by
                rw [List.length_drop]; omega
              show (x :: xs.take (B - 1)) :: page_groupsF f B (xs.drop (B - 1)) =
                (x :: xs.take (B - 1)) :: page_groupsF f₂ B (xs.drop (B - 1))
              rw [ih f₂ _ (by simp at hl; omega) (by simp at hl₂; omega)]

theorem page_groupsF_fuel {α : Type} (B : Nat) (f : Nat) (l : List α)
    (hl : l.length ≤ f) : page_groupsF f B l = page_groups B l :=
  page_groupsF_fuel_eq B f l.length l hl le_rfl

/-- The one-step unfolding of the grouping loop. -/
theorem page_groups_cons {α : Type} (B : Nat) (x : α) (xs : List α) :
    page_groups B (x :: xs) = (x :: xs.take (B - 1)) :: page_groups B (xs.drop (B - 1)) := by
  show (x :: xs.take (B - 1)) :: page_groupsF xs.length B (xs.drop (B - 1)) = _
  rw [page_groupsF_fuel B xs.length _ (by rw [List.length_drop]; omega)]

theorem page_groups_nil {α : Type} (B : Nat) : page_groups B ([] : List α) = [] := rfl

theorem page_groups_flatten {α : Type} (B : Nat) (l : List α) :
    (page_groups B l).flatten = l := by
  suffices h : ∀ n (l : List α), l.length ≤ n → (page_groups B l).flatten = l by
    exact h l.length l le_rfl
  intro n
  induction n with
  | zero =>
      intro l hl
      rw [List.eq_nil_of_length_eq_zero (Nat.le_zero.mp hl)]
      rfl
  | succ n ih =>
      intro l hl
      cases l with
      | nil => rfl
      | cons x xs =>
          have hxs : xs.length ≤ n := by simp at hl; omega
          have hdl : (xs.drop (B - 1)).length ≤ n := by
            rw [List.length_drop]; omega
          rw [page_groups_cons, List.flatten_cons, ih _ hdl, List.cons_append,
            List.take_append_drop]

theorem page_groups_ne_nil_mem {α : Type} (B : Nat) (l : List α) :
    ∀ g ∈ page_groups B l, g ≠ [] := by
  suffices h : ∀ n (l : List α), l.length ≤ n → ∀ g ∈ page_groups B l, g ≠ [] by
    exact h l.length l le_rfl
  intro n
  induction n with
  | zero =>
      intro l hl
      rw [List.eq_nil_of_length_eq_zero (Nat.le_zero.mp hl), page_groups_nil]
      intro g hg
      exact absurd hg (List.not_mem_nil g)
  | succ n ih =>
      intro l hl
      cases l with
      | nil =>
          rw [page_groups_nil]
          intro g hg
          exact absurd hg (List.not_mem_nil g)
      | cons x xs =>
          have hxs : xs.length ≤ n := by simp at hl; omega
          have hdl : (xs.drop (B - 1)).length ≤ n := by
            rw [List.length_drop]; omega
          rw [page_groups_cons]
          intro g hg
          rcases List.mem_cons.mp hg with hg | hg
          · rw [hg]; exact List.cons_ne_nil _ _
          · exact ih _ hdl g hg

theorem page_groups_length {α : Type} (B : Nat) (hB : 1 ≤ B) (l : List α) :
    (page_groups B l).length = (l.length + B - 1) / B := by
  suffices h : ∀ n (l : List α), l.length ≤ n →
      (page_groups B l).length = (l.length + B - 1) / B by
    exact h l.length l le_rfl
  intro n
  induction n with
  | zero =>
      intro l hl
      rw [List.eq_nil_of_length_eq_zero (Nat.le_zero.mp hl), page_groups_nil]
      show 0 = (0 + B - 1) / B
      rw [Nat.zero_add, Nat.div_eq_of_lt (by omega)]
  | succ n ih =>
      intro l hl
      cases l with
      | nil =>
          rw [page_groups_nil]
          show 0 = (0 + B - 1) / B
          rw [Nat.zero_add, Nat.div_eq_of_lt (by omega)]
      | cons x xs =>
          have hxs : xs.length ≤ n := by simp at hl; omega
          have hdl : (xs.drop (B - 1)).length ≤ n := by
            rw [List.length_drop]; omega
          rw [page_groups_cons, List.length_cons, ih _ hdl, List.length_drop,
            List.length_cons]
          have hr : xs.length + 1 + B - 1 = xs.length + B := by omega
          rw [hr, Nat.add_div_right _ (by omega)]
          have key : (xs.length - (B - 1) + B - 1) / B = xs.length / B := by
            rcases Nat.le_total (B - 1) xs.length with hc | hc
            · have heq : xs.length - (B - 1) + B - 1 = xs.length := by omega
              rw [heq]
            · have h1 : xs.length - (B - 1) + B - 1 = B - 1 := by omega
              rw [h1, Nat.div_eq_of_lt (by omega), Nat.div_eq_of_lt (by omega)]
          rw [key]

theorem page_groups_get_size {α : Type} (B : Nat) (hB : 1 ≤ B) (l : List α) :
    ∀ i, i + 1 < (page_groups B l).length →
      ∀ (h : i < (page_groups B l).length), ((page_groups B l).get ⟨i, h⟩).length = B := by
  suffices h : ∀ n (l : List α), l.length ≤ n → ∀ i, i + 1 < (page_groups B l).length →
      ∀ (h : i < (page_groups B l).length), ((page_groups B l).get ⟨i, h⟩).length = B by
    exact h l.length l le_rfl
  intro n
  induction n with
  | zero =>
      intro l hl i hi
      rw [List.eq_nil_of_length_eq_zero (Nat.le_zero.mp hl), page_groups_nil] at hi
      simp at hi
  | succ n ih =>
      intro l hl i hi h
      cases l with
      | nil =>
          rw [page_groups_nil] at hi
          simp at hi
      | cons x xs =>
          have hxs : xs.length ≤ n := by simp at hl; omega
          have hdl : (xs.drop (B - 1)).length ≤ n := by
            rw [List.length_drop]; omega
          revert hi h
          rw [page_groups_cons]
          intro hi h
          cases i with
          | zero =>
              have htail : page_groups B (xs.drop (B - 1)) ≠ [] := by
                intro hnil
                rw [List.length_cons, hnil] at hi
                simp at hi
              have hd : xs.drop (B - 1) ≠ [] := by
                intro hnil
                rw [hnil, page_groups_nil] at htail
                exact htail rfl
              have hlen : B - 1 ≤ xs.length := by
                by_contra hcon
                exact hd (List.drop_eq_nil_iff.mpr (by omega))
              show (x :: xs.take (B - 1)).length = B
              rw [List.length_cons, List.length_take, Nat.min_eq_left hlen]
              omega
          | succ i =>
              have hi2 : i + 1 < (page_groups B (xs.drop (B - 1))).length := by
                rw [List.length_cons] at hi
                omega
              show ((page_groups B (xs.drop (B - 1))).get ⟨i, _⟩).length = B
              exact ih _ hdl i hi2 _

theorem page_groups_last_size {α : Type} (B : Nat) (hB : 1 ≤ B) (l : List α) (hl : l ≠ []) :
    ∀ gl, (page_groups B l).getLast? = some gl →
      gl.length = if l.length % B = 0 then B else l.length % B := by
  suffices h : ∀ n (l : List α), l.length ≤ n → l ≠ [] →
      ∀ gl, (page_groups B l).getLast? = some gl →
        gl.length = if l.length % B = 0 then B else l.length % B by
    exact h l.length l le_rfl hl
  intro n
  induction n with
  | zero =>
      intro l hl hne
      exact absurd (List.eq_nil_of_length_eq_zero (Nat.le_zero.mp hl)) hne
  | succ n ih =>
      intro l hl hne gl hgl
      cases l with
      | nil => exact absurd rfl hne
      | cons x xs =>
          have hxs : xs.length ≤ n := by simp at hl; omega
          have hdl : (xs.drop (B - 1)).length ≤ n := by
            rw [List.length_drop]; omega
          rw [page_groups_cons] at hgl
          by_cases hd : xs.drop (B - 1) = []
          · -- a single batch holding the whole list
            rw [hd, page_groups_nil] at hgl
            have hgl2 : gl = x :: xs.take (B - 1) := by
              simpa using hgl.symm
            subst hgl2
            have hxsB : xs.length ≤ B - 1 := by
              by_contra hcon
              have := List.drop_eq_nil_iff.mp hd
              omega
            rw [List.length_cons, List.length_take, Nat.min_eq_right hxsB,
              List.length_cons]
            rcases Nat.lt_or_ge (xs.length + 1) B with hlt | hge
            · rw [if_neg (by rw [Nat.mod_eq_of_lt hlt]; omega), Nat.mod_eq_of_lt hlt]
            · have hBeq : xs.length + 1 = B := by omega
              rw [hBeq, if_pos (Nat.mod_self B)]
          · -- at least two batches: the last batch belongs to the tail call
            have htail : page_groups B (xs.drop (B - 1)) ≠ [] := by
              intro hnil
              have hfl := page_groups_flatten B (xs.drop (B - 1))
              rw [hnil] at hfl
              exact hd hfl.symm
            rw [getLast?_cons_of_ne_nil _ _ htail] at hgl
            have hlen : B - 1 ≤ xs.length := by
              by_contra hcon
              exact hd (List.drop_eq_nil_iff.mpr (by omega))
            have hrec := ih _ hdl hd gl hgl
            rw [List.length_drop] at hrec
            have hmodeq : (xs.length - (B - 1)) % B = (x :: xs).length % B := by
              have h1 : (x :: xs).length = xs.length - (B - 1) + B := by
                rw [List.length_cons]; omega
              rw [h1, Nat.add_mod_right]
            rw [hmodeq] at hrec
            exact hrec

/-- C4: for `P ≥ 1` pages and batch size `B ≥ 1`, the batch-planning loop
produces `⌈P/B⌉` batches which partition the input in order; every batch is
nonempty, all but possibly the last have size exactly `B`, and the last has
size `P mod B` (or `B` when `P mod B = 0`). -/
theorem page_groups_partition {α : Type} (B : Nat) (hB : 1 ≤ B) (l : List α) (hl : l ≠ []) :
    (page_groups B l).length = (l.length + B - 1) / B ∧
    (page_groups B l).flatten = l ∧
    (∀ g ∈ page_groups B l, g ≠ []) ∧
    (∀ i, i + 1 < (page_groups B l).length →
      ∀ (h : i < (page_groups B l).length), ((page_groups B l).get ⟨i, h⟩).length = B) ∧
    (∀ gl, (page_groups B l).getLast? = some gl →
      gl.length = if l.length % B = 0 then B else l.length % B) :=
  ⟨page_groups_length B hB l, page_groups_flatten B l, page_groups_ne_nil_mem B l,
    page_groups_get_size B hB l, page_groups_last_size B hB l hl⟩

/-- Witness for C4 at `P = 5`, `B = 2`: three batches `[1,2] [3,4] [5]`. -/
theorem page_groups_partition_witness :
    (1 ≤ 2 ∧ ([1, 2, 3, 4, 5] : List Nat) ≠ []) ∧
    ((page_groups 2 ([1, 2, 3, 4, 5] : List Nat)).length = (5 + 2 - 1) / 2 ∧
      (page_groups 2 ([1, 2, 3, 4, 5] : List Nat)).flatten = [1, 2, 3, 4, 5] ∧
      (∀ g ∈ page_groups 2 ([1, 2, 3, 4, 5] : List Nat), g ≠ []) ∧
      (∀ i, i + 1 < (page_groups 2 ([1, 2, 3, 4, 5] : List Nat)).length →
        ∀ (h : i < (page_groups 2 ([1, 2, 3, 4, 5] : List Nat)).length),
          ((page_groups 2 ([1, 2, 3, 4, 5] : List Nat)).get ⟨i, h⟩).length = 2) ∧
      (∀ gl, (page_groups 2 ([1, 2, 3, 4, 5] : List Nat)).getLast? = some gl →
        gl.length = if 5 % 2 = 0 then 2 else 5 % 2)) :=
  ⟨⟨by decide, by decide⟩, by
    have h := page_groups_partition 2 (by decide) ([1, 2, 3, 4, 5] : List Nat) (by decide)
    simpa using h⟩

/- ------------------------------------------------------------------ -/
/- Rate limiting (`PDFProcessor.apply_api_call_interval`,             -/
/- lines 286-302).  `time.time()` floats are modelled exactly as      -/
/- rationals; the body runs under `_api_call_lock`, so one call is a  -/
/- pure transition on the shared `_last_api_call_time` scalar.  The   -/
/- returned first component is the time slept (0 when no sleep), and  -/
/- waking from `time.sleep(d)` at time `t` is modelled as `t + d`.    -/
/- ------------------------------------------------------------------ -/

/-- The shared rate-limiter state: `_last_api_call_time`, initialised to 0. -/
structure RateState where
  last : Rat
deriving DecidableEq

/-- One call of `apply_api_call_interval` at wall-clock time `t` with the
configured `api_call_interval`.  Returns (time slept, new state). -/
def apply_api_call_interval (interval t : Rat) (s : RateState) : Rat × RateState :=
  if interval ≤ 0 then (0, s)
  else
    let elapsed := t - s.last
    if elapsed < interval ∧ 0 < s.last then
      (interval - elapsed, ⟨t + (interval - elapsed)⟩)
    else
      (0, ⟨t⟩)

/-- C6: with interval 0 `acquire` never waits (and leaves the state alone);
the first call of a job (`_last_api_call_time = 0`) never waits; and with a
positive interval the shared timestamp is set, once, to the time at which
the wait ended (call time plus sleep), not the time the call began. -/
theorem apply_api_call_interval_spec (interval t : Rat) (s : RateState) :
    (interval = 0 → apply_api_call_interval interval t s = (0, s)) ∧
    (s.last = 0 → (apply_api_call_interval interval t s).1 = 0) ∧
    (0 < interval →
      (apply_api_call_interval interval t s).2.last =
        t + (apply_api_call_interval interval t s).1) := by
  refine ⟨?_, ?_, ?_⟩
  · intro h0
    simp [apply_api_call_interval, h0]
  · intro hlast
    simp only [apply_api_call_interval]
    by_cases hi : interval ≤ 0
    · rw [if_pos hi]
    · rw [if_neg hi, if_neg (by rw [hlast]; intro hc; exact absurd hc.2 (lt_irrefl 0))]
  · intro hpos
    simp only [apply_api_call_interval, if_neg (not_le.mpr hpos)]
    by_cases hw : t - s.last < interval ∧ 0 < s.last
    · rw [if_pos hw]
    · rw [if_neg hw]
      show t = t + 0
      rw [add_zero]

/-- Witness for C6: all three cases at concrete states and times. -/
theorem apply_api_call_interval_spec_witness :
    (apply_api_call_interval 0 4 ⟨3⟩ = (0, ⟨3⟩)) ∧
    ((apply_api_call_interval 2 4 ⟨0⟩).1 = 0) ∧
    ((apply_api_call_interval 2 4 ⟨3⟩).2.last = 4 + (apply_api_call_interval 2 4 ⟨3⟩).1) :=
  ⟨(apply_api_call_interval_spec 0 4 ⟨3⟩).1 rfl,
    (apply_api_call_interval_spec 2 4 ⟨0⟩).2.1 rfl,
    (apply_api_call_interval_spec 2 4 ⟨3⟩).2.2 (by norm_num)⟩

/- ------------------------------------------------------------------ -/
/- Consolidation (`PDFProcessor.consolidate_markdown_files`,          -/
/- lines 425-456).  The md-directory listing is modelled as the list  -/
/- of (page number, file content) pairs in arbitrary (arrival) order; -/
/- `md_files.sort(key=...)` sorts it ascending by the page number     -/
/- parsed from the file name.  The generated header (whose timestamp  -/
/- is an input/output effect) is passed in as a parameter.            -/
/- ------------------------------------------------------------------ -/

/-- The fixed separator written after each page's content (line 454). -/
def pageSep : String := "\n\n---\n\n"

/-- `md_files.sort(key=lambda x: int(x.split('_')[1].split('.')[0]))`:
Python's stable sort on distinct integer keys, modelled by insertion sort
on the page-number key. -/
def sortByPage (store : List (Nat × String)) : List (Nat × String) :=
  store.insertionSort (fun a b => a.1 ≤ b.1)

/-- The output loop of `consolidate_markdown_files`: each file's content
followed by the separator, in sorted order. -/
def joinContents : List (Nat × String) → String
  | [] => ""
  | pr :: rest => pr.2 ++ pageSep ++ joinContents rest

/-- `consolidate_markdown_files`: header, then every md file's content in
ascending page order, each followed by the separator. -/
def consolidate_markdown_files (header : String) (store : List (Nat × String)) : String :=
  header ++ joinContents (sortByPage store)

instance : IsTotal (Nat × String) (fun a b => a.1 ≤ b.1) :=
  ⟨fun a b => Nat.le_total a.1 b.1⟩

instance : IsTrans (Nat × String) (fun a b => a.1 ≤ b.1) :=
  ⟨fun _ _ _ h1 h2 => Nat.le_trans h1 h2⟩

theorem sortByPage_perm (store : List (Nat × String)) :
    List.Perm (sortByPage store) store :=
  List.perm_insertionSort _ store

/-- With distinct page numbers the sorted listing is strictly ascending. -/
theorem sortByPage_keys_lt (store : List (Nat × String))
    (hkeys : (store.map Prod.fst).Nodup) :
    ((sortByPage store).map Prod.fst).Pairwise (· < ·) := by
  have hperm := sortByPage_perm store
  have hsorted : (sortByPage store).Pairwise (fun a b => a.1 ≤ b.1) :=
    List.sorted_insertionSort _ store
  have hnodup : ((sortByPage store).map Prod.fst).Nodup :=
    ((hperm.map Prod.fst).nodup_iff).mpr hkeys
  have hple : ((sortByPage store).map Prod.fst).Pairwise (· ≤ ·) :=
    (List.pairwise_map).mpr hsorted
  have hpne : ((sortByPage store).map Prod.fst).Pairwise (· ≠ ·) := hnodup
  exact (hple.and hpne).imp fun h => lt_of_le_of_ne h.1 h.2

theorem joinContents_append (l₁ l₂ : List (Nat × String)) :
    joinContents (l₁ ++ l₂) = joinContents l₁ ++ joinContents l₂ := by
  induction l₁ with
  | nil => simp [joinContents]
  | cons x t ih =>
      rw [List.cons_append]
      show x.2 ++ pageSep ++ joinContents (t ++ l₂) = x.2 ++ pageSep ++ joinContents t ++ joinContents l₂
      rw [ih, ← String.append_assoc]

/-- C5: the consolidated document is the header followed by every page's
content in strictly ascending page-number order (independent of arrival
order), with the fixed separator after each page; in particular pages
written in arrival order 2,1,3 appear as 1,2,3. -/
theorem consolidate_markdown_files_spec (header : String) (store : List (Nat × String))
    (hkeys : (store.map Prod.fst).Nodup) :
    consolidate_markdown_files header store = header ++ joinContents (sortByPage store) ∧
    List.Perm (sortByPage store) store ∧
    ((sortByPage store).map Prod.fst).Pairwise (· < ·) ∧
    consolidate_markdown_files "H" [(2, "A2"), (1, "A1"), (3, "A3")] =
      "HA1\n\n---\n\nA2\n\n---\n\nA3\n\n---\n\n" :=
  ⟨rfl, sortByPage_perm store, sortByPage_keys_lt store hkeys, by decide⟩

/-- Witness for C5 at a concrete store inserted in arrival order 2,1,3. -/
theorem consolidate_markdown_files_spec_witness :
    (([(2, "A2"), (1, "A1"), (3, "A3")] : List (Nat × String)).map Prod.fst).Nodup ∧
    (consolidate_markdown_files "H" [(2, "A2"), (1, "A1"), (3, "A3")] =
      "H" ++ joinContents (sortByPage [(2, "A2"), (1, "A1"), (3, "A3")]) ∧
    List.Perm (sortByPage [(2, "A2"), (1, "A1"), (3, "A3")]) [(2, "A2"), (1, "A1"), (3, "A3")] ∧
    ((sortByPage ([(2, "A2"), (1, "A1"), (3, "A3")] : List (Nat × String))).map
      Prod.fst).Pairwise (· < ·) ∧
    consolidate_markdown_files "H" [(2, "A2"), (1, "A1"), (3, "A3")] =
      "HA1\n\n---\n\nA2\n\n---\n\nA3\n\n---\n\n") :=
  ⟨by decide, consolidate_markdown_files_spec "H" [(2, "A2"), (1, "A1"), (3, "A3")] (by decide)⟩

/-- C10: consolidation merges every file in the md directory, not only the
pages of the current run.  A leftover entry `pr` from an earlier run (the
directory is created with `exist_ok=True` and never cleared, lines 50-54)
still appears in the sorted listing and its content is embedded in the
final document, in page-number order. -/
theorem consolidate_markdown_files_stale (header : String)
    (stale fresh : List (Nat × String)) (pr : Nat × String) (hpr : pr ∈ stale)
    (hkeys : ((stale ++ fresh).map Prod.fst).Nodup) :
    pr ∈ sortByPage (stale ++ fresh) ∧
    (∃ pre post, consolidate_markdown_files header (stale ++ fresh) =
      pre ++ (pr.2 ++ pageSep) ++ post) ∧
    ((sortByPage (stale ++ fresh)).map Prod.fst).Pairwise (· < ·) := by
  have hmem : pr ∈ sortByPage (stale ++ fresh) :=
    ((sortByPage_perm (stale ++ fresh)).mem_iff).mpr
      (List.mem_append.mpr (Or.inl hpr))
  refine ⟨hmem, ?_, sortByPage_keys_lt _ hkeys⟩
  rcases List.append_of_mem hmem with ⟨s1, s2, hsplit⟩
  refine ⟨header ++ joinContents s1, joinContents s2, ?_⟩
  rw [consolidate_markdown_files, hsplit, joinContents_append]
  show header ++ (joinContents s1 ++ (pr.2 ++ pageSep ++ joinContents s2)) = _
  rw [← String.append_assoc, ← String.append_assoc, String.append_assoc (header ++ joinContents s1)]

/-- Witness for C10: a stale page 7 from an earlier run is consolidated
together with the fresh pages 1 and 2 of the current run. -/
theorem consolidate_markdown_files_stale_witness :
    ((7, "S") ∈ ([(7, "S")] : List (Nat × String)) ∧
      ((([(7, "S")] : List (Nat × String)) ++ [(1, "A"), (2, "B")]).map Prod.fst).Nodup) ∧
    ((7, "S") ∈ sortByPage ([(7, "S")] ++ [(1, "A"), (2, "B")]) ∧
      (∃ pre post, consolidate_markdown_files "H" ([(7, "S")] ++ [(1, "A"), (2, "B")]) =
        pre ++ ((7, "S").2 ++ pageSep) ++ post) ∧
      ((sortByPage (([(7, "S")] : List (Nat × String)) ++ [(1, "A"), (2, "B")])).map
        Prod.fst).Pairwise (· < ·)) :=
  ⟨⟨by decide, by decide⟩,
    consolidate_markdown_files_stale "H" [(7, "S")] [(1, "A"), (2, "B")] (7, "S")
      (by decide) (by decide)⟩

/- ------------------------------------------------------------------ -/
/- Orchestration (`PDFProcessor.process`, lines 101-187, with         -/
/- `convert_pdf_to_images` lines 189-239 and `process_page_group`     -/
/- lines 241-284).  The run is modelled for the default page range    -/
/- 1..numPages.  The cancellation flag is the value of                -/
/- `is_cancelled()` for the run (set before dispatch and never        -/
/- cleared: `cancel()` only ever sets it).  A batch worker is an      -/
/- oracle from the batch's page numbers to either the per-page        -/
/- results it writes or the exception it raises; per the source a     -/
/- raised exception produces no writes for the batch and is logged    -/
/- and swallowed by the orchestrator loop (lines 163-166).  Progress  -/
/- values `int(done/total*50)` and `50+int(completed/groups*40)`      -/
/- (lines 227, 169) are the exact floors of those ratios.  Batch      -/
/- completion order is unspecified; writes are recorded in submission -/
/- order, which the claims only inspect up to membership.             -/
/- ------------------------------------------------------------------ -/

/-- Terminal state of one run. -/
inductive Outcome where
  | completed
  | cancelledRun
  | failedRun
deriving DecidableEq

/-- Observable behaviour of one `process()` run. -/
structure RunResult where
  outcome : Outcome
  writes : List (Nat × String)
  consolidated : Bool
  progress : List Nat
deriving DecidableEq

/-- One `process()` run over pages `1..numPages` with `pages_per_call = B`. -/
def processRun (numPages B : Nat) (cancelled : Bool)
    (api : List Nat → Except String (List (Nat × String))) : RunResult :=
  if cancelled then
    -- the render loop breaks before the first page, `process` logs and returns
    { outcome := Outcome.cancelledRun, writes := [], consolidated := false, progress := [] }
  else
    { outcome := Outcome.completed
      writes := ((page_groups B ((List.range numPages).map (· + 1))).map fun g =>
        match api g with
        | Except.ok ws => ws
        | Except.error _ => []).flatten
      consolidated := true
      progress :=
        ((List.range numPages).map fun k => 50 * (k + 1) / numPages) ++
        ((List.range (page_groups B ((List.range numPages).map (· + 1))).length).map
          fun c => 50 + 40 * (c + 1) /
            (page_groups B ((List.range numPages).map (· + 1))).length) ++ [100] }

/-- C7: when the cancel flag is set before dispatch starts, the run ends in
the `cancelledRun` state (distinct from `failedRun`), writes no page
results and never consolidates. -/
theorem processRun_cancelled_before_dispatch (numPages B : Nat)
    (api : List Nat → Except String (List (Nat × String))) :
    processRun numPages B true api =
      { outcome := Outcome.cancelledRun, writes := [], consolidated := false,
        progress := [] } ∧
    Outcome.cancelledRun ≠ Outcome.failedRun :=
  ⟨rfl, by decide⟩

/-- The page list of a run is duplicate-free, so distinct batches are
disjoint. -/
theorem run_groups_pairwise_disjoint (numPages B : Nat) :
    (page_groups B ((List.range numPages).map (· + 1))).Pairwise List.Disjoint := by
  have hnd : (((List.range numPages).map (· + 1)) : List Nat).Nodup :=
    (List.nodup_range numPages).map fun a b h => by omega
  have hflat := page_groups_flatten B ((List.range numPages).map (· + 1))
  have hjoin : (page_groups B ((List.range numPages).map (· + 1))).flatten.Nodup := by
    rw [hflat]; exact hnd
  exact (List.nodup_flatten.mp hjoin).2

/-- C8: an error raised while processing one batch is swallowed by the
orchestrator: the run still completes and consolidates, no page result is
written for the failing batch's pages, and every successful batch's
results are all written. -/
theorem processRun_batch_error_isolated (numPages B : Nat)
    (api : List Nat → Except String (List (Nat × String)))
    (g₀ : List Nat) (msg : String)
    (hg : g₀ ∈ page_groups B ((List.range numPages).map (· + 1)))
    (herr : api g₀ = Except.error msg)
    (hkeys : ∀ g ws, api g = Except.ok ws → ws.map Prod.fst = g) :
    (processRun numPages B false api).outcome = Outcome.completed ∧
    (processRun numPages B false api).consolidated = true ∧
    (∀ p ∈ g₀, p ∉ (processRun numPages B false api).writes.map Prod.fst) ∧
    (∀ g ∈ page_groups B ((List.range numPages).map (· + 1)),
      ∀ ws, api g = Except.ok ws →
        ∀ w ∈ ws, w ∈ (processRun numPages B false api).writes) := by
  refine ⟨rfl, rfl, ?_, ?_⟩
  · intro p hp hcon
    have hw : (processRun numPages B false api).writes =
        ((page_groups B ((List.range numPages).map (· + 1))).map fun g =>
          match api g with
          | Except.ok ws => ws
          | Except.error _ => []).flatten := rfl
    rw [hw, List.map_flatten, List.map_map] at hcon
    rcases List.mem_flatten.mp hcon with ⟨l, hl, hpl⟩
    rcases List.mem_map.mp hl with ⟨g₁, hg₁, rfl⟩
    cases hapi : api g₁ with
    | error e =>
        have hnil : (List.map Prod.fst ∘ fun g =>
            match api g with
            | Except.ok ws => ws
            | Except.error _ => []) g₁ = [] := by
          show List.map Prod.fst
            (match api g₁ with
            | Except.ok ws => ws
            | Except.error _ => []) = []
          rw [hapi]
          rfl
        rw [hnil] at hpl
        exact absurd hpl (List.not_mem_nil p)
    | ok ws₁ =>
        have hml : (List.map Prod.fst ∘ fun g =>
            match api g with
            | Except.ok ws => ws
            | Except.error _ => []) g₁ = g₁ := by
          show List.map Prod.fst
            (match api g₁ with
            | Except.ok ws => ws
            | Except.error _ => []) = g₁
          rw [hapi]
          exact hkeys g₁ ws₁ hapi
        rw [hml] at hpl
        have hne : g₀ ≠ g₁ := by
          intro he
          rw [← he, herr] at hapi
          exact Except.noConfusion hapi
        have hsym : Symmetric (α := List Nat) List.Disjoint := fun _ _ h => h.symm
        have hdisj : List.Disjoint g₀ g₁ :=
          (run_groups_pairwise_disjoint numPages B).forall hsym hg hg₁ hne
        exact hdisj hp hpl
  · intro g hgmem ws hok w hw
    apply List.mem_flatten.mpr
    refine ⟨ws, List.mem_map.mpr ⟨g, hgmem, by rw [hok]⟩, hw⟩

/-- A concrete two-batch oracle whose first batch fails. -/
def apiW : List Nat → Except String (List (Nat × String)) :=
  fun g => if g = [1] then Except.error "E" else Except.ok (g.map fun p => (p, "T"))

theorem apiW_keys : ∀ g ws, apiW g = Except.ok ws → ws.map Prod.fst = g := by
  intro g ws h
  by_cases hq : g = [1]
  · rw [apiW, if_pos hq] at h
    exact Except.noConfusion h
  · rw [apiW, if_neg hq] at h
    have hws : ws = g.map fun p => (p, "T") := (Except.ok.injEq _ _).mp h.symm
    have hcomp : (Prod.fst ∘ fun p : Nat => (p, "T")) = id := rfl
    rw [hws, List.map_map, hcomp, List.map_id]

/-- Witness for C8: pages 1,2 in singleton batches, batch [1] failing. -/
theorem processRun_batch_error_isolated_witness :
    ([1] ∈ page_groups 1 ((List.range 2).map (· + 1)) ∧ apiW [1] = Except.error "E") ∧
    ((processRun 2 1 false apiW).outcome = Outcome.completed ∧
      (processRun 2 1 false apiW).consolidated = true ∧
      (∀ p ∈ ([1] : List Nat), p ∉ (processRun 2 1 false apiW).writes.map Prod.fst) ∧
      (∀ g ∈ page_groups 1 ((List.range 2).map (· + 1)), ∀ ws, apiW g = Except.ok ws →
        ∀ w ∈ ws, w ∈ (processRun 2 1 false apiW).writes)) :=
  ⟨⟨by decide, rfl⟩,
    processRun_batch_error_isolated 2 1 apiW [1] "E" (by decide) rfl apiW_keys⟩

theorem render_progress_le (numPages : Nat) :
    ∀ x ∈ (List.range numPages).map fun k => 50 * (k + 1) / numPages, x ≤ 50 := by
  intro x hx
  rcases List.mem_map.mp hx with ⟨k, hk, rfl⟩
  have hkN : k + 1 ≤ numPages := List.mem_range.mp hk
  calc 50 * (k + 1) / numPages ≤ 50 * numPages / numPages :=
        Nat.div_le_div_right (Nat.mul_le_mul_left 50 hkN)
    _ = 50 := Nat.mul_div_cancel 50 (by omega)

theorem batch_progress_bounds (G : Nat) :
    ∀ x ∈ (List.range G).map fun c => 50 + 40 * (c + 1) / G, 50 ≤ x ∧ x ≤ 90 := by
  intro x hx
  rcases List.mem_map.mp hx with ⟨c, hc, rfl⟩
  have hcG : c + 1 ≤ G := List.mem_range.mp hc
  constructor
  · exact Nat.le_add_right 50 _
  · have h40 : 40 * (c + 1) / G ≤ 40 :=
      calc 40 * (c + 1) / G ≤ 40 * G / G :=
            Nat.div_le_div_right (Nat.mul_le_mul_left 40 hcG)
        _ = 40 := Nat.mul_div_cancel 40 (by omega)
    omega

theorem render_progress_pairwise (numPages : Nat) :
    ((List.range numPages).map fun k => 50 * (k + 1) / numPages).Pairwise (· ≤ ·) := by
  apply (List.pairwise_map).mpr
  exact (List.pairwise_lt_range numPages).imp fun h =>
    Nat.div_le_div_right (Nat.mul_le_mul_left 50 (by omega))

theorem batch_progress_pairwise (G : Nat) :
    ((List.range G).map fun c => 50 + 40 * (c + 1) / G).Pairwise (· ≤ ·) := by
  apply (List.pairwise_map).mpr
  exact (List.pairwise_lt_range G).imp fun h =>
    Nat.add_le_add_left (Nat.div_le_div_right (Nat.mul_le_mul_left 40 (by omega))) 50

/-- C9: every emitted progress value lies in [0,100] and the emitted
sequence is monotonically non-decreasing; rendering events are the floors
`⌊50·done/total⌋ ≤ 50`, batch events are `50 + ⌊40·completed/batches⌋`
between 50 and 90, and 100 is emitted exactly once, after consolidation. -/
theorem processRun_progress_spec (numPages B : Nat)
    (api : List Nat → Except String (List (Nat × String))) :
    (processRun numPages B false api).progress =
      ((List.range numPages).map fun k => 50 * (k + 1) / numPages) ++
      ((List.range (page_groups B ((List.range numPages).map (· + 1))).length).map
        fun c => 50 + 40 * (c + 1) /
          (page_groups B ((List.range numPages).map (· + 1))).length) ++ [100] ∧
    (processRun numPages B false api).progress.Pairwise (· ≤ ·) ∧
    (∀ x ∈ (processRun numPages B false api).progress, x ≤ 100) ∧
    (∀ x ∈ (List.range numPages).map fun k => 50 * (k + 1) / numPages, x ≤ 50) ∧
    (∀ x ∈ (List.range (page_groups B ((List.range numPages).map (· + 1))).length).map
        fun c => 50 + 40 * (c + 1) /
          (page_groups B ((List.range numPages).map (· + 1))).length, 50 ≤ x ∧ x ≤ 90) ∧
    (processRun numPages B false api).progress.getLast? = some 100 ∧
    (processRun numPages B false api).consolidated = true := by
  have hA := render_progress_le numPages
  have hBb := batch_progress_bounds (page_groups B ((List.range numPages).map (· + 1))).length
  have hprog : (processRun numPages B false api).progress =
      ((List.range numPages).map fun k => 50 * (k + 1) / numPages) ++
      (((List.range (page_groups B ((List.range numPages).map (· + 1))).length).map
        fun c => 50 + 40 * (c + 1) /
          (page_groups B ((List.range numPages).map (· + 1))).length) ++ [100]) := by
    rw [← List.append_assoc]
    rfl
  refine ⟨by rw [← List.append_assoc] at hprog; exact hprog, ?_, ?_, hA, hBb, ?_, rfl⟩
  · rw [hprog]
    apply (List.pairwise_append).mpr
    refine ⟨render_progress_pairwise numPages, ?_, ?_⟩
    · apply (List.pairwise_append).mpr
      refine ⟨batch_progress_pairwise _, List.pairwise_singleton _ _, ?_⟩
      intro a ha b hb
      rw [List.mem_singleton.mp hb]
      exact Nat.le_trans (hBb a ha).2 (by omega)
    · intro a ha b hb
      rcases List.mem_append.mp hb with hb | hb
      · exact Nat.le_trans (hA a ha) (hBb b hb).1
      · rw [List.mem_singleton.mp hb]
        exact Nat.le_trans (hA a ha) (by omega)
  · rw [hprog]
    intro x hx
    rcases List.mem_append.mp hx with hx | hx
    · exact Nat.le_trans (hA x hx) (by omega)
    · rcases List.mem_append.mp hx with hx | hx
      · exact Nat.le_trans (hBb x hx).2 (by omega)
      · rw [List.mem_singleton.mp hx]
  · rw [hprog, getLast?_append_right _ _ (by simp), getLast?_append_right _ _ (by simp)]
    rfl

/- ------------------------------------------------------------------ -/
/- Response splitting (`split_and_save_multi_page_response`,          -/
/- lines 368-423).  The English-language branch is modelled: the      -/
/- page-header pattern is `#+\s*Page\s+(\d+)` with re.IGNORECASE      -/
/- (the Chinese branch is structurally analogous).  `re.finditer`     -/
/- scans left to right for non-overlapping matches; since each        -/
/- greedy run of the pattern is followed by a disjoint character      -/
/- class, matching is deterministic maximal munch.  Python `\s` and   -/
/- `\d` are modelled on their ASCII ranges.                           -/
/- ------------------------------------------------------------------ -/

/-- ASCII range of Python's `\s` (and of `str.strip()`'s default set). -/
def isSpaceChar (c : Char) : Bool :=
  c = ' ' || c = '\t' || c = '\n' || c = '\r' || c = '\x0b' || c = '\x0c'

/-- Length of the maximal prefix satisfying `p` (a greedy regex run). -/
def countWhile (p : Char → Bool) : List Char → Nat
  | [] => 0
  | c :: cs => if p c then countWhile p cs + 1 else 0

/-- `int(match.group(1))` on the digit run. -/
def digitsVal (l : List Char) : Nat :=
  l.foldl (fun n c => 10 * n + (c.toNat - 48)) 0

/-- Case-insensitive comparison of one text character with a lower-case
pattern letter. -/
def lowEq (c d : Char) : Bool := c.toLower = d

/-- The case-insensitive literal `Page` at the head of the remaining text. -/
def checkPage : List Char → Bool
  | a :: b :: c :: d :: _ => lowEq a 'p' && lowEq b 'a' && lowEq c 'g' && lowEq d 'e'
  | _ => false

/-- One attempt of `#+\s*Page\s+(\d+)` (IGNORECASE) anchored at the head of
`s`: on success, the match length and the parsed page number. -/
def matchAt (s : List Char) : Option (Nat × Nat) :=
  let h := countWhile (fun c => c = '#') s
  if h = 0 then none
  else
    let w := countWhile isSpaceChar (s.drop h)
    let s2 := (s.drop h).drop w
    if checkPage s2 then
      let s3 := s2.drop 4
      let w2 := countWhile isSpaceChar s3
      if w2 = 0 then none
      else
        let dg := countWhile Char.isDigit (s3.drop w2)
        if dg = 0 then none
        else some (h + w + 4 + w2 + dg, digitsVal ((s3.drop w2).take dg))
    else none

/-- Fuelled `re.finditer` scan: at each position try `matchAt`; a match is
recorded as (start position, parsed page number) and the scan resumes
after it, otherwise the scan advances one character. -/
def findFromF : Nat → List Char → Nat → List (Nat × Nat)
  | 0, _, _ => []
  | _ + 1, [], _ => []
  | fuel + 1, c :: cs, pos =>
      match matchAt (c :: cs) with
      | some (len, num) => (pos, num) :: findFromF fuel ((c :: cs).drop len) (pos + len)
      | none => findFromF fuel cs (pos + 1)

/-- `split_positions` (lines 379-383): all header matches of the response,
as (start position, page number) pairs in scan order. -/
def split_positions (s : List Char) (pos : Nat) : List (Nat × Nat) :=
  findFromF s.length s pos

/-- The segment loop (lines 414-421): each match owns the text from its
start position up to the next match's start (or the end of the response). -/
def segmentsFrom (resp : List Char) : List (Nat × Nat) → List (Nat × List Char)
  | [] => []
  | (pos, num) :: rest =>
      (num, (resp.drop pos).take ((match rest with
        | [] => resp.length
        | (pos2, _) :: _ => pos2) - pos)) :: segmentsFrom resp rest

/-- Python `response.split('\n')`. -/
def splitNl : List Char → List (List Char)
  | [] => [[]]
  | c :: cs =>
      if c = '\n' then [] :: splitNl cs
      else
        match splitNl cs with
        | [] => [[c]]
        | l :: ls => (c :: l) :: ls

/-- Python `'\n'.join(lines)`. -/
def joinNl : List (List Char) → List Char
  | [] => []
  | [l] => l
  | l :: l' :: ls => l ++ '\n' :: joinNl (l' :: ls)

/-- The synthesized fallback header `f"# Page {page_num}\n\n"` (line 401). -/
def headerChars (p : Nat) : List Char :=
  '#' :: ' ' :: 'P' :: 'a' :: 'g' :: 'e' :: ' ' :: ((Nat.repr p).data ++ ['\n', '\n'])

/-- `page_content.strip().startswith('#')` (line 405). -/
def stripStartsHash (l : List Char) : Bool :=
  match l.dropWhile isSpaceChar with
  | '#' :: _ => true
  | _ => false

/-- The `i`-th line block of the fallback split (lines 391-397):
`lines[start_line:end_line]` with `start_line = i*(len(lines)//n)` and
`end_line = (i+1)*(len(lines)//n)` except `len(lines)` for the last block. -/
def fallback_block (resp : List Char) (n i : Nat) : List (List Char) :=
  let lines := splitNl resp
  let lpp := lines.length / n
  (lines.drop (i * lpp)).take ((if i < n - 1 then (i + 1) * lpp else lines.length) - i * lpp)

/-- The fallback branch (lines 386-412): split the lines into `n` blocks of
`len(lines)//n` lines (remainder to the last), prepending a synthesized
header to a block whose stripped text does not start with `#`. -/
def fallback_split (resp : List Char) (page_nums : List Nat) : List (Nat × List Char) :=
  page_nums.enum.map fun ip =>
    let content := joinNl (fallback_block resp page_nums.length ip.1)
    (ip.2, if stripStartsHash content then content else headerChars ip.2 ++ content)

/-- `split_and_save_multi_page_response` (lines 368-423), returning the
written (page number, content) pairs in write order. -/
def split_and_save_multi_page_response (resp : List Char) (page_nums : List Nat) :
    List (Nat × List Char) :=
  if split_positions resp 0 = [] ∧ 1 < page_nums.length then fallback_split resp page_nums
  else segmentsFrom resp (split_positions resp 0)

theorem countWhile_le_length (p : Char → Bool) (l : List Char) :
    countWhile p l ≤ l.length := by
  induction l with
  | nil => exact Nat.le_refl 0
  | cons c cs ih =>
      rw [countWhile]
      by_cases hc : p c
      · rw [if_pos hc, List.length_cons]; omega
      · rw [if_neg hc]; omega

theorem countWhile_append_of_lt (p : Char → Bool) (a b : List Char)
    (h : countWhile p a < a.length) : countWhile p (a ++ b) = countWhile p a := by
  induction a with
  | nil => simp at h
  | cons c cs ih =>
      rw [List.cons_append]
      show (if p c then countWhile p (cs ++ b) + 1 else 0) =
        (if p c then countWhile p cs + 1 else 0)
      by_cases hc : p c
      · rw [if_pos hc, if_pos hc, ih (by
          rw [countWhile, if_pos hc, List.length_cons] at h
          omega)]
      · rw [if_neg hc, if_neg hc]

theorem countWhile_append_of_head (p : Char → Bool) (a b : List Char)
    (hb : ∀ c ∈ b.head?, p c = false) : countWhile p (a ++ b) = countWhile p a := by
  induction a with
  | nil =>
      rw [List.nil_append]
      cases b with
      | nil => rfl
      | cons c cs =>
          have hc := hb c rfl
          show (if p c then countWhile p cs + 1 else 0) = 0
          rw [if_neg (by rw [hc]; exact Bool.false_ne_true)]
  | cons c cs ih =>
      rw [List.cons_append]
      show (if p c then countWhile p (cs ++ b) + 1 else 0) =
        (if p c then countWhile p cs + 1 else 0)
      by_cases hc : p c
      · rw [if_pos hc, if_pos hc, ih]
      · rw [if_neg hc, if_neg hc]

theorem countWhile_eq_length (p : Char → Bool) (l : List Char)
    (h : countWhile p l = l.length) : ∀ c ∈ l, p c = true := by
  induction l with
  | nil => intro c hc; exact absurd hc (List.not_mem_nil c)
  | cons c cs ih =>
      rw [countWhile] at h
      by_cases hc : p c
      · rw [if_pos hc, List.length_cons] at h
        intro x hx
        rcases List.mem_cons.mp hx with hx | hx
        · rw [hx]; exact hc
        · exact ih (by omega) x hx
      · rw [if_neg hc, List.length_cons] at h
        omega

/-- A nonempty text not ending in `#` is not a pure `#`-run, so the greedy
`#+` at its head stops strictly inside it. -/
theorem not_all_hash (t : List Char) (hne : t ≠ []) (hlast : t.getLast? ≠ some '#') :
    countWhile (fun c => c = '#') t < t.length := by
  rcases Nat.lt_or_ge (countWhile (fun c => c = '#') t) t.length with h | h
  · exact h
  · exfalso
    have heq : countWhile (fun c => c = '#') t = t.length :=
      Nat.le_antisymm (countWhile_le_length _ t) h
    have hall := countWhile_eq_length _ t heq
    have hmem : t.getLast hne ∈ t := List.getLast_mem hne
    have hhash := hall _ hmem
    simp at hhash
    apply hlast
    rw [List.getLast?_eq_getLast t hne, hhash]

theorem countWhile_pos_head (p : Char → Bool) (l : List Char)
    (h : 0 < countWhile p l) : ∃ c cs, l = c :: cs ∧ p c = true := by
  cases l with
  | nil => simp [countWhile] at h
  | cons c cs =>
      refine ⟨c, cs, rfl, ?_⟩
      by_cases hc : p c
      · exact hc
      · rw [countWhile, if_neg hc] at h
        omega

theorem lowEq_hash_p : lowEq '#' 'p' = false := by decide

theorem lowEq_hash_a : lowEq '#' 'a' = false := by decide

theorem lowEq_hash_g : lowEq '#' 'g' = false := by decide

theorem lowEq_hash_e : lowEq '#' 'e' = false := by decide

theorem isSpaceChar_hash : isSpaceChar '#' = false := by decide

theorem isDigit_hash : Char.isDigit '#' = false := by decide

theorem checkPage_length (s : List Char) (h : checkPage s = true) : 4 ≤ s.length := by
  rcases s with _ | ⟨a, _ | ⟨b, _ | ⟨c, _ | ⟨d, s'⟩⟩⟩⟩
  · exact absurd h Bool.false_ne_true
  · exact absurd h Bool.false_ne_true
  · exact absurd h Bool.false_ne_true
  · exact absurd h Bool.false_ne_true
  · simp [List.length_cons]

theorem checkPage_append (s v : List Char) (hv : ∀ c ∈ v.head?, c = '#') :
    checkPage (s ++ v) = checkPage s := by
  rcases v with _ | ⟨c0, v'⟩
  · rw [List.append_nil]
  · have hc0 : c0 = '#' := hv c0 rfl
    subst hc0
    rcases s with _ | ⟨a, _ | ⟨b, _ | ⟨c, _ | ⟨d, s'⟩⟩⟩⟩
    · rcases v' with _ | ⟨b1, _ | ⟨b2, _ | ⟨b3, rest⟩⟩⟩ <;>
        simp [checkPage, lowEq_hash_p]
    · rcases v' with _ | ⟨b1, _ | ⟨b2, rest⟩⟩ <;>
        simp [checkPage, lowEq_hash_a]
    · rcases v' with _ | ⟨b1, rest⟩ <;>
        simp [checkPage, lowEq_hash_g]
    · simp [checkPage, lowEq_hash_e]
    · rfl

/-- Appending text whose head is `#` (or nothing) after a text whose
`#`-run stops strictly inside it does not change the anchored match:
every greedy run of the pattern is stopped by the `#` before it can
cross the boundary. -/
theorem matchAt_append (t v : List Char)
    (ht : countWhile (fun c => c = '#') t < t.length)
    (hv : ∀ c ∈ v.head?, c = '#') :
    matchAt (t ++ v) = matchAt t := by
  rcases v with _ | ⟨c0, v'⟩
  · rw [List.append_nil]
  · have hc0 : c0 = '#' := hv c0 rfl
    subst hc0
    have hvh : ∀ c ∈ (('#' :: v') : List Char).head?, c = '#' := by
      intro c hc
      have h := hc
      simp at h
      exact h.symm
    have h1 : countWhile (fun c => c = '#') (t ++ '#' :: v') =
        countWhile (fun c => c = '#') t :=
      countWhile_append_of_lt _ _ _ ht
    have h2 : (t ++ '#' :: v').drop (countWhile (fun c => c = '#') t) =
        t.drop (countWhile (fun c => c = '#') t) ++ '#' :: v' :=
      List.drop_append_of_le_length (Nat.le_of_lt ht)
    have h3 : countWhile isSpaceChar
          (t.drop (countWhile (fun c => c = '#') t) ++ '#' :: v') =
        countWhile isSpaceChar (t.drop (countWhile (fun c => c = '#') t)) :=
      countWhile_append_of_head _ _ _ (by
        intro c hc
        rw [hvh c hc]
        exact isSpaceChar_hash)
    have h4 : (t.drop (countWhile (fun c => c = '#') t) ++ '#' :: v').drop
          (countWhile isSpaceChar (t.drop (countWhile (fun c => c = '#') t))) =
        (t.drop (countWhile (fun c => c = '#') t)).drop
          (countWhile isSpaceChar (t.drop (countWhile (fun c => c = '#') t))) ++
          '#' :: v' :=
      List.drop_append_of_le_length (countWhile_le_length _ _)
    have h5 : checkPage
          ((t.drop (countWhile (fun c => c = '#') t)).drop
            (countWhile isSpaceChar (t.drop (countWhile (fun c => c = '#') t))) ++
            '#' :: v') =
        checkPage ((t.drop (countWhile (fun c => c = '#') t)).drop
          (countWhile isSpaceChar (t.drop (countWhile (fun c => c = '#') t)))) :=
      checkPage_append _ _ hvh
    by_cases hcp : checkPage ((t.drop (countWhile (fun c => c = '#') t)).drop
        (countWhile isSpaceChar (t.drop (countWhile (fun c => c = '#') t)))) = true
    · have h6 := checkPage_length _ hcp
      have h7 : (((t.drop (countWhile (fun c => c = '#') t)).drop
            (countWhile isSpaceChar (t.drop (countWhile (fun c => c = '#') t)))) ++
            '#' :: v').drop 4 =
          ((t.drop (countWhile (fun c => c = '#') t)).drop
            (countWhile isSpaceChar (t.drop (countWhile (fun c => c = '#') t)))).drop 4 ++
            '#' :: v' :=
        List.drop_append_of_le_length h6
      have h8 : countWhile isSpaceChar
            (((t.drop (countWhile (fun c => c = '#') t)).drop
              (countWhile isSpaceChar (t.drop (countWhile (fun c => c = '#') t)))).drop 4 ++
              '#' :: v') =
          countWhile isSpaceChar
            (((t.drop (countWhile (fun c => c = '#') t)).drop
              (countWhile isSpaceChar (t.drop (countWhile (fun c => c = '#') t)))).drop 4) :=
        countWhile_append_of_head _ _ _ (by
          intro c hc
          rw [hvh c hc]
          exact isSpaceChar_hash)
      have h9 : ((((t.drop (countWhile (fun c => c = '#') t)).drop
            (countWhile isSpaceChar (t.drop (countWhile (fun c => c = '#') t)))).drop 4) ++
            '#' :: v').drop
            (countWhile isSpaceChar
              (((t.drop (countWhile (fun c => c = '#') t)).drop
                (countWhile isSpaceChar (t.drop (countWhile (fun c => c = '#') t)))).drop 4)) =
          ((((t.drop (countWhile (fun c => c = '#') t)).drop
            (countWhile isSpaceChar (t.drop (countWhile (fun c => c = '#') t)))).drop 4)).drop
            (countWhile isSpaceChar
              (((t.drop (countWhile (fun c => c = '#') t)).drop
                (countWhile isSpaceChar (t.drop (countWhile (fun c => c = '#') t)))).drop 4)) ++
            '#' :: v' :=
        List.drop_append_of_le_length (countWhile_le_length _ _)
      have h10 : countWhile Char.isDigit
            (((((t.drop (countWhile (fun c => c = '#') t)).drop
              (countWhile isSpaceChar (t.drop (countWhile (fun c => c = '#') t)))).drop 4)).drop
              (countWhile isSpaceChar
                (((t.drop (countWhile (fun c => c = '#') t)).drop
                  (countWhile isSpaceChar (t.drop (countWhile (fun c => c = '#') t)))).drop 4)) ++
              '#' :: v') =
          countWhile Char.isDigit
            (((((t.drop (countWhile (fun c => c = '#') t)).drop
              (countWhile isSpaceChar (t.drop (countWhile (fun c => c = '#') t)))).drop 4)).drop
              (countWhile isSpaceChar
                (((t.drop (countWhile (fun c => c = '#') t)).drop
                  (countWhile isSpaceChar (t.drop (countWhile (fun c => c = '#') t)))).drop 4))) :=
        countWhile_append_of_head _ _ _ (by
          intro c hc
          rw [hvh c hc]
          exact isDigit_hash)
      have h11 : ∀ dg ≤ (((((t.drop (countWhile (fun c => c = '#') t)).drop
            (countWhile isSpaceChar (t.drop (countWhile (fun c => c = '#') t)))).drop 4)).drop
            (countWhile isSpaceChar
              (((t.drop (countWhile (fun c => c = '#') t)).drop
                (countWhile isSpaceChar (t.drop (countWhile (fun c => c = '#') t)))).drop 4))).length,
          (((((t.drop (countWhile (fun c => c = '#') t)).drop
            (countWhile isSpaceChar (t.drop (countWhile (fun c => c = '#') t)))).drop 4)).drop
            (countWhile isSpaceChar
              (((t.drop (countWhile (fun c => c = '#') t)).drop
                (countWhile isSpaceChar (t.drop (countWhile (fun c => c = '#') t)))).drop 4)) ++
            '#' :: v').take dg =
          (((((t.drop (countWhile (fun c => c = '#') t)).drop
            (countWhile isSpaceChar (t.drop (countWhile (fun c => c = '#') t)))).drop 4)).drop
            (countWhile isSpaceChar
              (((t.drop (countWhile (fun c => c = '#') t)).drop
                (countWhile isSpaceChar (t.drop (countWhile (fun c => c = '#') t)))).drop 4))).take dg :=
        fun dg hdg => List.take_append_of_le_length hdg
      simp only [matchAt, h1, h2, h3, h4, h5, h7, h8, h9, h10,
        h11 _ (countWhile_le_length _ _)]
    · simp only [matchAt, h1, h2, h3, h4, h5]
      rw [if_neg hcp, if_neg hcp]

theorem matchAt_head (s : List Char) (len num : Nat)
    (h : matchAt s = some (len, num)) : ∃ cs, s = '#' :: cs := by
  by_cases hh : countWhile (fun c => c = '#') s = 0
  · simp only [matchAt, if_pos hh] at h
    exact Option.noConfusion h
  · have hpos : 0 < countWhile (fun c => c = '#') s := Nat.pos_of_ne_zero hh
    rcases countWhile_pos_head _ _ hpos with ⟨c, cs, rfl, hc⟩
    have hc' : c = '#' := by simpa using hc
    exact ⟨cs, by rw [hc']⟩

theorem matchAt_some_bounds (s : List Char) (len num : Nat)
    (h : matchAt s = some (len, num)) : 1 ≤ len ∧ len ≤ s.length := by
  simp only [matchAt] at h
  by_cases hh : countWhile (fun c => c = '#') s = 0
  · rw [if_pos hh] at h
    exact Option.noConfusion h
  · rw [if_neg hh] at h
    by_cases hcp : checkPage ((s.drop (countWhile (fun c => c = '#') s)).drop
        (countWhile isSpaceChar (s.drop (countWhile (fun c => c = '#') s)))) = true
    · rw [if_pos hcp] at h
      by_cases hw2 : countWhile isSpaceChar
          (((s.drop (countWhile (fun c => c = '#') s)).drop
            (countWhile isSpaceChar (s.drop (countWhile (fun c => c = '#') s)))).drop 4) = 0
      · rw [if_pos hw2] at h
        exact Option.noConfusion h
      · rw [if_neg hw2] at h
        by_cases hdg : countWhile Char.isDigit
            ((((s.drop (countWhile (fun c => c = '#') s)).drop
              (countWhile isSpaceChar (s.drop (countWhile (fun c => c = '#') s)))).drop 4).drop
              (countWhile isSpaceChar
                (((s.drop (countWhile (fun c => c = '#') s)).drop
                  (countWhile isSpaceChar (s.drop (countWhile (fun c => c = '#') s)))).drop 4))) = 0
        · rw [if_pos hdg] at h
          exact Option.noConfusion h
        · rw [if_neg hdg] at h
          have hlen := (Prod.mk.injEq _ _ _ _).mp ((Option.some.injEq _ _).mp h)
          have f1 := countWhile_le_length (fun c => c = '#') s
          have f2 := countWhile_le_length isSpaceChar
            (s.drop (countWhile (fun c => c = '#') s))
          have f3 := checkPage_length _ hcp
          have f4 := countWhile_le_length isSpaceChar
            (((s.drop (countWhile (fun c => c = '#') s)).drop
              (countWhile isSpaceChar (s.drop (countWhile (fun c => c = '#') s)))).drop 4)
          have f5 := countWhile_le_length Char.isDigit
            ((((s.drop (countWhile (fun c => c = '#') s)).drop
              (countWhile isSpaceChar (s.drop (countWhile (fun c => c = '#') s)))).drop 4).drop
              (countWhile isSpaceChar
                (((s.drop (countWhile (fun c => c = '#') s)).drop
                  (countWhile isSpaceChar (s.drop (countWhile (fun c => c = '#') s)))).drop 4)))
          rw [List.length_drop] at f2
          rw [List.length_drop, List.length_drop] at f3
          rw [List.length_drop, List.length_drop, List.length_drop] at f4
          rw [List.length_drop, List.length_drop, List.length_drop,
            List.length_drop] at f5
          omega
    · rw [if_neg hcp] at h
      exact Option.noConfusion h

theorem findFromF_nil (f pos : Nat) : findFromF f [] pos = [] := by
  cases f <;> rfl

theorem findFromF_fuel_eq :
    ∀ (f₁ f₂ : Nat) (s : List Char) (pos : Nat), s.length ≤ f₁ → s.length ≤ f₂ →
      findFromF f₁ s pos = findFromF f₂ s pos := by
  intro f₁
  induction f₁ with
  | zero =>
      intro f₂ s pos hl _
      rw [List.eq_nil_of_length_eq_zero (Nat.le_zero.mp hl), findFromF_nil, findFromF_nil]
  | succ f ih =>
      intro f₂ s pos hl hl₂
      cases s with
      | nil => rw [findFromF_nil, findFromF_nil]
      | cons c cs =>
          cases f₂ with
          | zero => simp at hl₂
          | succ f₂ =>
              show (match matchAt (c :: cs) with
                | some (len, num) =>
                    (pos, num) :: findFromF f ((c :: cs).drop len) (pos + len)
                | none => findFromF f cs (pos + 1)) =
                (match matchAt (c :: cs) with
                | some (len, num) =>
                    (pos, num) :: findFromF f₂ ((c :: cs).drop len) (pos + len)
                | none => findFromF f₂ cs (pos + 1))
              cases hm : matchAt (c :: cs) with
              | some ln =>
                  rcases ln with ⟨len, num⟩
                  have hb := matchAt_some_bounds _ _ _ hm
                  have hdl : ((c :: cs).drop len).length ≤ f := by
                    rw [List.length_drop, List.length_cons]
                    simp at hl
                    omega
                  have hdl₂ : ((c :: cs).drop len).length ≤ f₂ := by
                    rw [List.length_drop, List.length_cons]
                    simp at hl₂
                    omega
                  show (pos, num) :: findFromF f ((c :: cs).drop len) (pos + len) =
                    (pos, num) :: findFromF f₂ ((c :: cs).drop len) (pos + len)
                  rw [ih f₂ _ _ hdl hdl₂]
              | none =>
                  exact ih f₂ cs (pos + 1) (by simp at hl; omega) (by simp at hl₂; omega)

theorem findFromF_fuel (f : Nat) (s : List Char) (pos : Nat) (h : s.length ≤ f) :
    findFromF f s pos = split_positions s pos :=
  findFromF_fuel_eq f s.length s pos h le_rfl

theorem split_positions_cons_some (c : Char) (cs : List Char) (pos len num : Nat)
    (hm : matchAt (c :: cs) = some (len, num)) :
    split_positions (c :: cs) pos =
      (pos, num) :: split_positions ((c :: cs).drop len) (pos + len) := by
  have hb := matchAt_some_bounds _ _ _ hm
  have hstep : split_positions (c :: cs) pos =
      (pos, num) :: findFromF cs.length ((c :: cs).drop len) (pos + len) := by
    show (match matchAt (c :: cs) with
      | some (len, num) => (pos, num) :: findFromF cs.length ((c :: cs).drop len) (pos + len)
      | none => findFromF cs.length cs (pos + 1)) = _
    rw [hm]
  rw [hstep, findFromF_fuel cs.length ((c :: cs).drop len) (pos + len) (by
    rw [List.length_drop, List.length_cons]
    omega)]

theorem split_positions_cons_none (c : Char) (cs : List Char) (pos : Nat)
    (hm : matchAt (c :: cs) = none) :
    split_positions (c :: cs) pos = split_positions cs (pos + 1) := by
  show (match matchAt (c :: cs) with
    | some (len, num) => (pos, num) :: findFromF cs.length ((c :: cs).drop len) (pos + len)
    | none => findFromF cs.length cs (pos + 1)) = _
  rw [hm]
  rfl

theorem split_positions_shift :
    ∀ (f : Nat) (s : List Char) (pos : Nat), s.length ≤ f →
      split_positions s pos = (split_positions s 0).map (fun q => (q.1 + pos, q.2)) := by
  intro f
  induction f with
  | zero =>
      intro s pos hl
      rw [List.eq_nil_of_length_eq_zero (Nat.le_zero.mp hl)]
      rfl
  | succ f ih =>
      intro s pos hl
      cases s with
      | nil => rfl
      | cons c cs =>
          cases hm : matchAt (c :: cs) with
          | some ln =>
              rcases ln with ⟨len, num⟩
              have hb := matchAt_some_bounds _ _ _ hm
              have hdl : ((c :: cs).drop len).length ≤ f := by
                rw [List.length_drop, List.length_cons]
                simp at hl
                omega
              rw [split_positions_cons_some c cs pos len num hm,
                split_positions_cons_some c cs 0 len num hm, List.map_cons,
                ih _ (pos + len) hdl, ih _ (0 + len) hdl, List.map_map]
              congr 1
              · simp
              · apply List.map_congr_left
                intro q _
                simp only [Function.comp_apply, Prod.mk.injEq]
                exact ⟨by omega, trivial⟩
          | none =>
              have hcs : cs.length ≤ f := by simp at hl; omega
              rw [split_positions_cons_none c cs pos hm,
                split_positions_cons_none c cs 0 hm, ih _ (pos + 1) hcs,
                ih _ (0 + 1) hcs, List.map_map]
              apply List.map_congr_left
              intro q _
              simp only [Function.comp_apply, Prod.mk.injEq]
              exact ⟨by omega, trivial⟩

theorem split_positions_nil_shift (s : List Char) (pos : Nat)
    (h : split_positions s pos = []) : ∀ pos', split_positions s pos' = [] := by
  intro pos'
  have h0 : split_positions s 0 = [] := by
    have := split_positions_shift s.length s pos le_rfl
    rw [h] at this
    exact (List.map_eq_nil_iff).mp this.symm
  rw [split_positions_shift s.length s pos' le_rfl, h0]
  rfl

/-- A text whose only header match is at position 0: the anchored match
succeeds there, parses the page number, and the remainder is match-free. -/
theorem split_positions_single (b : List Char) (p : Nat)
    (h : split_positions b 0 = [(0, p)]) :
    b ≠ [] ∧ ∃ len, matchAt b = some (len, p) ∧ 1 ≤ len ∧ len ≤ b.length ∧
      split_positions (b.drop len) 0 = [] := by
  cases b with
  | nil => exact absurd h (by simp [split_positions, findFromF])
  | cons c cs =>
      refine ⟨List.cons_ne_nil c cs, ?_⟩
      cases hm : matchAt (c :: cs) with
      | none =>
          exfalso
          rw [split_positions_cons_none c cs 0 hm,
            split_positions_shift cs.length cs 1 le_rfl] at h
          have hmem : ((0, p) : Nat × Nat) ∈
              (split_positions cs 0).map (fun q => (q.1 + 1, q.2)) := by
            rw [h]
            exact List.mem_singleton.mpr rfl
          rcases List.mem_map.mp hmem with ⟨q, _, hq⟩
          have h0 : q.1 + 1 = 0 := congrArg Prod.fst hq
          omega
      | some ln =>
          rcases ln with ⟨len, num⟩
          have hb := matchAt_some_bounds _ _ _ hm
          rw [split_positions_cons_some c cs 0 len num hm] at h
          have hnum : num = p := by
            have hh := congrArg List.head? h
            simp at hh
            exact hh
          have htail : split_positions ((c :: cs).drop len) (0 + len) = [] := by
            have ht := congrArg List.tail h
            simpa using ht
          exact ⟨len, by rw [hnum], hb.1, hb.2,
            split_positions_nil_shift _ _ htail 0⟩

/-- Scanning match-free text (not ending in `#`) followed by text starting
with `#` finds exactly the matches of the suffix, shifted. -/
theorem split_positions_append_clean :
    ∀ (t : List Char), split_positions t 0 = [] → t.getLast? ≠ some '#' →
      ∀ (v : List Char), (∀ c ∈ v.head?, c = '#') →
        ∀ pos, split_positions (t ++ v) pos = split_positions v (pos + t.length) := by
  intro t
  induction t with
  | nil =>
      intro _ _ v _ pos
      rw [List.nil_append, List.length_nil, Nat.add_zero]
  | cons c cs ih =>
      intro hnone hlast v hv pos
      have hm : matchAt (c :: cs) = none := by
        cases hm : matchAt (c :: cs) with
        | none => rfl
        | some ln =>
            exfalso
            rcases ln with ⟨len, num⟩
            rw [split_positions_cons_some c cs 0 len num hm] at hnone
            exact List.noConfusion hnone
      have hnone' : split_positions cs 0 = [] := by
        rw [split_positions_cons_none c cs 0 hm] at hnone
        exact split_positions_nil_shift _ _ hnone 0
      have hlast' : cs.getLast? ≠ some '#' := by
        cases cs with
        | nil => simp
        | cons c' cs' =>
            rw [getLast?_cons_of_ne_nil c (c' :: cs') (List.cons_ne_nil c' cs')] at hlast
            exact hlast
      have hmapp : matchAt ((c :: cs) ++ v) = none := by
        rw [matchAt_append (c :: cs) v
          (not_all_hash (c :: cs) (List.cons_ne_nil c cs) hlast) hv, hm]
      rw [List.cons_append,
        split_positions_cons_none c (cs ++ v) pos (by rw [← List.cons_append]; exact hmapp),
        ih hnone' hlast' v hv (pos + 1), List.length_cons]
      refine congrArg _ ?_
      omega

/-- The expected match positions when the response is a concatenation of
per-page blocks: one header per block, at the block's start offset. -/
def headerPositions (pos : Nat) : List (List Char) → List Nat → List (Nat × Nat)
  | [], _ => []
  | _, [] => []
  | b :: bs, p :: ps => (pos, p) :: headerPositions (pos + b.length) bs ps

/-- The per-block round-trip precondition: the block's only header match is
at its start and parses to its page number, and the block does not end in
`#` (which would let the `#+` of the next block's header creep backwards
across the boundary). -/
def cleanBlock (b : List Char) (p : Nat) : Prop :=
  split_positions b 0 = [(0, p)] ∧ b.getLast? ≠ some '#'

theorem cleanBlock_ne_nil {b : List Char} {p : Nat} (h : cleanBlock b p) : b ≠ [] :=
  (split_positions_single b p h.1).1

theorem cleanBlock_head {b : List Char} {p : Nat} (h : cleanBlock b p) :
    ∃ cs, b = '#' :: cs := by
  rcases (split_positions_single b p h.1).2 with ⟨len, hm, _, _, _⟩
  exact matchAt_head b len p hm

/-- The flattened tail of a clean block list starts with `#` (or is empty). -/
theorem cleanBlocks_flatten_head (bs : List (List Char)) (ps : List Nat)
    (h : List.Forall₂ cleanBlock bs ps) :
    ∀ c ∈ bs.flatten.head?, c = '#' := by
  cases h with
  | nil => intro c hc; simp at hc
  | cons h₁ h₂ =>
      rename_i b p bs' ps'
      intro c hc
      rcases cleanBlock_head h₁ with ⟨cs, rfl⟩
      rw [List.flatten_cons, List.cons_append] at hc
      simp at hc
      exact hc.symm

/-- Main scanning lemma: on a concatenation of clean per-page blocks the
scanner finds exactly one match per block, at the block's start offset,
keyed by that block's page number. -/
theorem split_positions_flatten (blocks : List (List Char)) (pages : List Nat)
    (h : List.Forall₂ cleanBlock blocks pages) :
    ∀ pos, split_positions blocks.flatten pos = headerPositions pos blocks pages := by
  induction h with
  | nil => intro pos; rfl
  | cons h₁ h₂ ih =>
      rename_i b p bs ps
      intro pos
      rcases split_positions_single b p h₁.1 with ⟨hbne, len, hm, hlen1, hlenle, htail⟩
      have hvhead : ∀ c ∈ bs.flatten.head?, c = '#' := cleanBlocks_flatten_head bs ps h₂
      have hmapp : matchAt (b ++ bs.flatten) = some (len, p) := by
        rw [matchAt_append b bs.flatten (not_all_hash b hbne h₁.2) hvhead, hm]
      rcases cleanBlock_head h₁ with ⟨cs, rfl⟩
      rw [List.flatten_cons, List.cons_append,
        split_positions_cons_some _ _ pos len p (by rw [← List.cons_append]; exact hmapp),
        ← List.cons_append, List.drop_append_of_le_length hlenle]
      have hlast2 : (('#' :: cs).drop len).getLast? ≠ some '#' := by
        by_cases hd : ('#' :: cs).drop len = []
        · rw [hd]; simp
        · rw [getLast?_drop_of_ne_nil _ _ hd]; exact h₁.2
      rw [split_positions_append_clean (('#' :: cs).drop len) htail hlast2
        bs.flatten hvhead (pos + len), List.length_drop]
      show (pos, p) :: split_positions bs.flatten (pos + len + (('#' :: cs).length - len)) =
        (pos, p) :: headerPositions (pos + ('#' :: cs).length) bs ps
      rw [ih]
      have harith : pos + len + (('#' :: cs).length - len) = pos + ('#' :: cs).length := by
        simp only [List.length_cons] at hlenle ⊢
        omega
      rw [harith]

/-- Slicing the concatenation at the block-start positions recovers the
blocks, each keyed by its page number. -/
theorem segmentsFrom_headerPositions :
    ∀ (blocks : List (List Char)) (pages : List Nat) (u : List Char),
      blocks.length = pages.length →
      segmentsFrom (u ++ blocks.flatten) (headerPositions u.length blocks pages) =
        pages.zip blocks := by
  intro blocks
  induction blocks with
  | nil =>
      intro pages u hlen
      cases pages with
      | nil => rfl
      | cons p ps => simp at hlen
  | cons b bs ih =>
      intro pages u hlen
      cases pages with
      | nil => simp at hlen
      | cons p ps =>
          cases bs with
          | nil =>
              cases ps with
              | cons p' ps' => simp at hlen
              | nil =>
                  show [(p, ((u ++ ([b] : List (List Char)).flatten).drop u.length).take
                      ((u ++ ([b] : List (List Char)).flatten).length - u.length))] =
                    [(p, b)]
                  have hfl : ([b] : List (List Char)).flatten = b := by simp
                  rw [hfl, List.drop_left, List.length_append]
                  have htake : u.length + b.length - u.length = b.length := by omega
                  rw [htake, List.take_of_length_le (Nat.le_refl b.length)]
          | cons b' bs' =>
              cases ps with
              | nil => simp at hlen
              | cons p' ps' =>
                  have hflat : ((b :: b' :: bs') : List (List Char)).flatten =
                      b ++ ((b' :: bs') : List (List Char)).flatten := List.flatten_cons ..
                  show (p, ((u ++ ((b :: b' :: bs') : List (List Char)).flatten).drop
                        u.length).take (u.length + b.length - u.length)) ::
                      segmentsFrom (u ++ ((b :: b' :: bs') : List (List Char)).flatten)
                        (headerPositions (u.length + b.length) (b' :: bs') (p' :: ps')) =
                    (p, b) :: (p' :: ps').zip (b' :: bs')
                  have htake : u.length + b.length - u.length = b.length := by omega
                  have hseg : ((u ++ ((b :: b' :: bs') : List (List Char)).flatten).drop
                      u.length).take b.length = b := by
                    rw [hflat, List.drop_left, List.take_left]
                  rw [htake, hseg, hflat, ← List.append_assoc]
                  have hlen2 : u.length + b.length = (u ++ b).length :=
                    (List.length_append u b).symm
                  rw [hlen2, ih (p' :: ps') (u ++ b) (by simpa using hlen)]

/-- C1 (amended): splitting a response that is the concatenation of clean
per-page blocks — each block's only header match at its start, parsing to
its page number, and no block ending in `#` — yields exactly the original
blocks, keyed by the page numbers parsed from the headers. -/
theorem split_and_save_roundtrip (blocks : List (List Char)) (pages : List Nat)
    (hn : 1 < pages.length)
    (h : List.Forall₂ cleanBlock blocks pages) :
    split_and_save_multi_page_response blocks.flatten pages = pages.zip blocks := by
  have hpos : split_positions blocks.flatten 0 = headerPositions 0 blocks pages :=
    split_positions_flatten blocks pages h 0
  have hlen : blocks.length = pages.length := h.length_eq
  have hne : split_positions blocks.flatten 0 ≠ [] := by
    rw [hpos]
    cases h with
    | nil => simp at hn
    | cons h₁ h₂ => exact List.cons_ne_nil _ _
  rw [split_and_save_multi_page_response, if_neg (by
    intro hcon
    exact hne hcon.1)]
  rw [hpos]
  have := segmentsFrom_headerPositions blocks pages [] hlen
  simpa using this

/-- C1 as frozen is falsified on two concrete inputs. First: blocks for
pages [1,2], each beginning with a well-formed header for its page, but
with a stray page-header marker inside the first block — the split yields
three segments keyed 1, 9, 2 instead of two.  Second: blocks whose only
match is at their start, but the first ends in `#` — the `#` fuses with
the next header, so the segments differ from the original blocks. -/
theorem split_and_save_roundtrip_counterexample :
    (matchAt "# Page 1\nA\n# Page 9\n".toList = some (8, 1) ∧
      matchAt "# Page 2\nB".toList = some (8, 2) ∧
      (split_and_save_multi_page_response
        ("# Page 1\nA\n# Page 9\n".toList ++ "# Page 2\nB".toList) [1, 2]).map Prod.fst =
        [1, 9, 2] ∧
      ¬ (split_and_save_multi_page_response
        ("# Page 1\nA\n# Page 9\n".toList ++ "# Page 2\nB".toList) [1, 2]).length = 2) ∧
    (split_positions "# Page 1\nA#".toList 0 = [(0, 1)] ∧
      split_positions "# Page 2\nB".toList 0 = [(0, 2)] ∧
      ¬ split_and_save_multi_page_response
          ("# Page 1\nA#".toList ++ "# Page 2\nB".toList) [1, 2] =
        [(1, "# Page 1\nA#".toList), (2, "# Page 2\nB".toList)] ∧
      split_and_save_multi_page_response
          ("# Page 1\nA#".toList ++ "# Page 2\nB".toList) [1, 2] =
        [(1, "# Page 1\nA".toList), (2, "## Page 2\nB".toList)]) := by
  exact ⟨⟨by decide, by decide, by decide, by decide⟩,
    ⟨by decide, by decide, by decide, by decide⟩⟩

/-- Witness for the amended C1 at the spec's pages [3,4,5]. -/
theorem split_and_save_roundtrip_witness :
    (1 < ([3, 4, 5] : List Nat).length ∧
      List.Forall₂ cleanBlock
        ["# Page 3\nAAA\n".toList, "# Page 4\nBBB\n".toList, "# Page 5\nCCC".toList]
        [3, 4, 5]) ∧
    split_and_save_multi_page_response
        (["# Page 3\nAAA\n".toList, "# Page 4\nBBB\n".toList,
          "# Page 5\nCCC".toList] : List (List Char)).flatten [3, 4, 5] =
      ([3, 4, 5] : List Nat).zip
        ["# Page 3\nAAA\n".toList, "# Page 4\nBBB\n".toList, "# Page 5\nCCC".toList] :=
  ⟨⟨by decide,
    List.Forall₂.cons ⟨by decide, by decide⟩
      (List.Forall₂.cons ⟨by decide, by decide⟩
        (List.Forall₂.cons ⟨by decide, by decide⟩ List.Forall₂.nil))⟩,
    split_and_save_roundtrip
      ["# Page 3\nAAA\n".toList, "# Page 4\nBBB\n".toList, "# Page 5\nCCC".toList]
      [3, 4, 5] (by decide)
      (List.Forall₂.cons ⟨by decide, by decide⟩
        (List.Forall₂.cons ⟨by decide, by decide⟩
          (List.Forall₂.cons ⟨by decide, by decide⟩ List.Forall₂.nil)))⟩

/-- Consecutive slices `[i*lpp, (i+1)*lpp)` (with the last slice running to
the end) partition a list, for any slice width. -/
theorem slice_blocks_flatten {α : Type} (lpp : Nat) :
    ∀ (n : Nat) (lines : List α), 1 ≤ n →
      ((List.range n).map fun i =>
        (lines.drop (i * lpp)).take
          ((if i < n - 1 then (i + 1) * lpp else lines.length) - i * lpp)).flatten =
        lines := by
  intro n
  induction n with
  | zero => intro lines h; simp at h
  | succ n ih =>
      intro lines _
      by_cases hn0 : n = 0
      · subst hn0
        rw [List.range_succ_eq_map, List.range_zero, List.map_nil, List.map_cons,
          List.map_nil, List.flatten_cons, List.flatten_nil, List.append_nil]
        rw [if_neg (by omega), Nat.zero_mul, Nat.sub_zero, List.drop_zero]
        exact List.take_of_length_le (Nat.le_refl _)
      · have hn1 : 1 ≤ n := Nat.pos_of_ne_zero hn0
        rw [List.range_succ_eq_map, List.map_cons, List.flatten_cons, List.map_map]
        have hmap : ((List.range n).map ((fun i =>
            (lines.drop (i * lpp)).take
              ((if i < n + 1 - 1 then (i + 1) * lpp else lines.length) - i * lpp)) ∘
              (· + 1))) =
            (List.range n).map fun i =>
              ((lines.drop lpp).drop (i * lpp)).take
                ((if i < n - 1 then (i + 1) * lpp else (lines.drop lpp).length) - i * lpp) := by
          apply List.map_congr_left
          intro i hi
          have hin : i < n := List.mem_range.mp hi
          simp only [Function.comp_apply]
          have hdrop : lines.drop ((i + 1) * lpp) = (lines.drop lpp).drop (i * lpp) := by
            rw [List.drop_drop]
            refine congrArg₂ _ ?_ rfl
            rw [Nat.succ_mul]
            omega
          rw [hdrop]
          by_cases hcase : i < n - 1
          · rw [if_pos (by omega), if_pos hcase]
            have h1 : (i + 1 + 1) * lpp - (i + 1) * lpp = lpp := by
              rw [Nat.succ_mul (i + 1) lpp]
              omega
            have h2 : (i + 1) * lpp - i * lpp = lpp := by
              rw [Nat.succ_mul i lpp]
              omega
            rw [h1, h2]
          · rw [if_neg (by omega), if_neg hcase]
            have h1 : (i + 1) * lpp = i * lpp + lpp := Nat.succ_mul i lpp
            rw [List.length_drop, h1, Nat.sub_sub, Nat.add_comm lpp (i * lpp)]
        rw [hmap, ih (lines.drop lpp) hn1]
        rw [if_pos (by omega), Nat.zero_mul, Nat.sub_zero, List.drop_zero, Nat.one_mul]
        exact List.take_append_drop lpp lines

/-- The fallback line blocks partition the response's lines. -/
theorem fallback_blocks_flatten (resp : List Char) (n : Nat) (hn : 1 ≤ n) :
    ((List.range n).map (fallback_block resp n)).flatten = splitNl resp :=
  slice_blocks_flatten ((splitNl resp).length / n) n (splitNl resp) hn

theorem fallback_block_length_mid (resp : List Char) (n i : Nat) (hi : i < n - 1) :
    (fallback_block resp n i).length = (splitNl resp).length / n := by
  have hle : (i + 1) * ((splitNl resp).length / n) ≤ (splitNl resp).length :=
    calc (i + 1) * ((splitNl resp).length / n) ≤ n * ((splitNl resp).length / n) :=
          Nat.mul_le_mul_right _ (by omega)
      _ = ((splitNl resp).length / n) * n := Nat.mul_comm _ _
      _ ≤ (splitNl resp).length := Nat.div_mul_le_self _ n
  simp only [fallback_block]
  rw [if_pos hi, List.length_take, List.length_drop]
  obtain ⟨q, hq⟩ : ∃ q, (splitNl resp).length / n = q := ⟨_, rfl⟩
  rw [hq] at hle ⊢
  have hstep : (i + 1) * q - i * q = q := by
    rw [Nat.succ_mul]
    omega
  rw [hstep]
  have hsm : (i + 1) * q = i * q + q := Nat.succ_mul _ _
  exact Nat.min_eq_left (by omega)

theorem fallback_block_length_last (resp : List Char) (n : Nat) (hn : 1 ≤ n) :
    (fallback_block resp n (n - 1)).length =
      (splitNl resp).length / n + (splitNl resp).length % n := by
  simp only [fallback_block]
  rw [if_neg (by omega), List.length_take, List.length_drop, Nat.min_self]
  have hdm : n * ((splitNl resp).length / n) + (splitNl resp).length % n =
      (splitNl resp).length := Nat.div_add_mod _ n
  obtain ⟨q, hq⟩ : ∃ q, (splitNl resp).length / n = q := ⟨_, rfl⟩
  obtain ⟨r, hr⟩ : ∃ r, (splitNl resp).length % n = r := ⟨_, rfl⟩
  rw [hq, hr] at hdm ⊢
  have hsm : (n - 1) * q + q = n * q := by
    have hn' : n - 1 + 1 = n := by omega
    calc (n - 1) * q + q = (n - 1 + 1) * q := (Nat.succ_mul _ _).symm
      _ = n * q := by rw [hn']
  omega

theorem stripStartsHash_ne_nil (l : List Char) (h : stripStartsHash l = true) : l ≠ [] := by
  intro he
  subst he
  exact absurd h (by decide)

/-- C2: with zero header matches and more than one requested page, the
fallback writes exactly one segment per page, keyed `p1..pn` in order;
the response's lines are divided into `n` contiguous blocks of
`⌊lines/n⌋` lines (remainder on the last block) which partition the
lines; each written segment is the block's text with a synthesized header
prepended when the stripped block does not start with `#`; and every
segment is nonempty. -/
theorem fallback_split_spec (resp : List Char) (pages : List Nat)
    (hnone : split_positions resp 0 = []) (hn : 1 < pages.length) :
    (split_and_save_multi_page_response resp pages).length = pages.length ∧
    (split_and_save_multi_page_response resp pages).map Prod.fst = pages ∧
    (∀ pr ∈ split_and_save_multi_page_response resp pages, pr.2 ≠ []) ∧
    ((List.range pages.length).map (fallback_block resp pages.length)).flatten =
      splitNl resp ∧
    (∀ i, i < pages.length - 1 →
      (fallback_block resp pages.length i).length =
        (splitNl resp).length / pages.length) ∧
    (fallback_block resp pages.length (pages.length - 1)).length =
      (splitNl resp).length / pages.length + (splitNl resp).length % pages.length ∧
    (∀ i (hi : i < pages.length)
        (ho : i < (split_and_save_multi_page_response resp pages).length),
      (split_and_save_multi_page_response resp pages).get ⟨i, ho⟩ =
        (pages.get ⟨i, hi⟩,
          if stripStartsHash (joinNl (fallback_block resp pages.length i)) then
            joinNl (fallback_block resp pages.length i)
          else headerChars (pages.get ⟨i, hi⟩) ++
            joinNl (fallback_block resp pages.length i))) := by
  have hout : split_and_save_multi_page_response resp pages = fallback_split resp pages := by
    rw [split_and_save_multi_page_response, if_pos ⟨hnone, hn⟩]
  refine ⟨?_, ?_, ?_, fallback_blocks_flatten resp pages.length (by omega),
    fun i hi => fallback_block_length_mid resp pages.length i hi,
    fallback_block_length_last resp pages.length (by omega), ?_⟩
  · rw [hout, fallback_split, List.length_map, List.enum_length]
  · rw [hout, fallback_split, List.map_map]
    exact List.enum_map_snd pages
  · intro pr hpr
    rw [hout, fallback_split] at hpr
    rcases List.mem_map.mp hpr with ⟨ip, _, rfl⟩
    by_cases hs : stripStartsHash (joinNl (fallback_block resp pages.length ip.1)) = true
    · show (if stripStartsHash (joinNl (fallback_block resp pages.length ip.1)) then
          joinNl (fallback_block resp pages.length ip.1)
        else headerChars ip.2 ++ joinNl (fallback_block resp pages.length ip.1)) ≠ []
      rw [if_pos hs]
      exact stripStartsHash_ne_nil _ hs
    · show (if stripStartsHash (joinNl (fallback_block resp pages.length ip.1)) then
          joinNl (fallback_block resp pages.length ip.1)
        else headerChars ip.2 ++ joinNl (fallback_block resp pages.length ip.1)) ≠ []
      rw [if_neg hs, headerChars]
      exact List.cons_ne_nil _ _
  · intro i hi ho
    rw [List.get_eq_getElem, List.get_eq_getElem]
    simp only [hout, fallback_split, List.getElem_map, List.getElem_enum]

/-- Witness for C2: a two-line response with no header match for pages
[1,2]. -/
theorem fallback_split_spec_witness :
    (split_positions "hello\nworld".toList 0 = [] ∧ 1 < ([1, 2] : List Nat).length) ∧
    ((split_and_save_multi_page_response "hello\nworld".toList [1, 2]).length = ([1, 2] : List Nat).length ∧
    (split_and_save_multi_page_response "hello\nworld".toList [1, 2]).map Prod.fst = [1, 2] ∧
    (∀ pr ∈ split_and_save_multi_page_response "hello\nworld".toList [1, 2], pr.2 ≠ []) ∧
    ((List.range ([1, 2] : List Nat).length).map
      (fallback_block "hello\nworld".toList ([1, 2] : List Nat).length)).flatten = splitNl "hello\nworld".toList ∧
    (∀ i, i < ([1, 2] : List Nat).length - 1 →
      (fallback_block "hello\nworld".toList ([1, 2] : List Nat).length i).length =
        (splitNl "hello\nworld".toList).length / ([1, 2] : List Nat).length) ∧
    (fallback_block "hello\nworld".toList ([1, 2] : List Nat).length
        (([1, 2] : List Nat).length - 1)).length =
      (splitNl "hello\nworld".toList).length / ([1, 2] : List Nat).length +
        (splitNl "hello\nworld".toList).length % ([1, 2] : List Nat).length ∧
    (∀ i (hi : i < ([1, 2] : List Nat).length)
        (ho : i < (split_and_save_multi_page_response "hello\nworld".toList [1, 2]).length),
      (split_and_save_multi_page_response "hello\nworld".toList [1, 2]).get ⟨i, ho⟩ =
        (([1, 2] : List Nat).get ⟨i, hi⟩,
          if stripStartsHash (joinNl (fallback_block "hello\nworld".toList
              ([1, 2] : List Nat).length i)) then
            joinNl (fallback_block "hello\nworld".toList ([1, 2] : List Nat).length i)
          else headerChars (([1, 2] : List Nat).get ⟨i, hi⟩) ++
            joinNl (fallback_block "hello\nworld".toList ([1, 2] : List Nat).length i)))) :=
  ⟨⟨by decide, by decide⟩, fallback_split_spec "hello\nworld".toList [1, 2] (by decide) (by decide)⟩
